import Mathlib

/-!
Shallow embedding of the libnop table protocol exercised by
examples/table.cpp. The table encoder, decoder and Entry type live in the
nop headers, which are not part of this source tree; they are modelled from
the specification: a wire record is a varint count of present entries
followed by that many pairs of a varint field id and a self-describing
(length-prefixed) value, written in ascending field id order. The decoder
reconciles each wire entry against a target schema: unknown ids and retired
ids are skipped using the framing alone, active ids are parsed and stored.
-/

/-- Modelled from the spec: the declared value types used by the example
tables, a byte string and a sequence of 32-bit signed integers. -/
inductive TypeTag where
  | str
  | intSeq

deriving instance DecidableEq for TypeTag

/-- Modelled from the spec: a value held by a table entry. A string is its
byte list; an int sequence is its element list. -/
inductive Value where
  | str (bytes : List Nat)
  | intSeq (elems : List Int)

deriving instance DecidableEq for Value

/-- Modelled from the spec: the lifecycle state of a schema slot. -/
inductive FieldState where
  | active
  | retired

deriving instance DecidableEq for FieldState

/-- Modelled from the spec: one triple of the schema descriptor. -/
structure SchemaField where
  fieldId : Nat
  tag : TypeTag
  state : FieldState

deriving instance DecidableEq for SchemaField

/-- Modelled from the spec: one slot of a table instance, its descriptor
entry together with an optional value. -/
structure Slot where
  field : SchemaField
  value : Option Value

deriving instance DecidableEq for Slot

/-- Modelled from the spec: a schema descriptor is the ordered list of its
field triples. -/
abbrev Schema := List SchemaField

/-- LEB128 variable-length encoding of an unsigned integer, the varint of
the wire format. -/
def varintEncode (n : Nat) : List Nat :=
  if h : n < 128 then [n]
  else (n % 128 + 128) :: varintEncode (n / 128)
termination_by n
decreasing_by
  omega

/-- LEB128 decoding, returning the value and the unconsumed tail, or none
when the stream ends inside the varint. -/
def varintDecode : List Nat → Option (Nat × List Nat)
  | [] => none
  | b :: rest =>
    if b < 128 then some (b, rest)
    else
      match varintDecode rest with
      | none => none
      | some (m, rest2) => some (b - 128 + 128 * m, rest2)

/-- Fixed-width little-endian two-complement encoding of one 32-bit signed
integer, the fixed-size scalar encoding of the spec. -/
def encodeInt (i : Int) : List Nat :=
  [(i % 4294967296).toNat % 256,
   (i % 4294967296).toNat / 256 % 256,
   (i % 4294967296).toNat / 65536 % 256,
   (i % 4294967296).toNat / 16777216 % 256]

/-- Decoding of one 32-bit signed integer from its four little-endian
bytes. -/
def decodeIntBytes (b0 b1 b2 b3 : Nat) : Int :=
  if b0 + 256 * b1 + 65536 * b2 + 16777216 * b3 < 2147483648 then
    ((b0 + 256 * b1 + 65536 * b2 + 16777216 * b3 : Nat) : Int)
  else ((b0 + 256 * b1 + 65536 * b2 + 16777216 * b3 : Nat) : Int) - 4294967296

/-- Payload bytes of an integer sequence: the concatenation of the
fixed-width element encodings. -/
def encodeInts : List Int → List Nat
  | [] => []
  | i :: xs => encodeInt i ++ encodeInts xs

/-- Parsing of an integer sequence payload, four bytes per element. -/
def decodeInts : List Nat → List Int
  | b0 :: b1 :: b2 :: b3 :: rest => decodeIntBytes b0 b1 b2 b3 :: decodeInts rest
  | _ => []

/-- Payload bytes of a value, before the length prefix. -/
def framePayload : Value → List Nat
  | Value.str s => s
  | Value.intSeq xs => encodeInts xs

/-- Self-describing framing of a value: a varint byte-length prefix
followed by the payload, so a reader without the schema can skip it. -/
def frameValue (v : Value) : List Nat :=
  varintEncode (framePayload v).length ++ framePayload v

/-- Interpretation of a framed payload at a declared type. A payload whose
structure is incompatible with the type, such as an int sequence payload
whose length is not a multiple of four, is rejected. -/
def parseValue : TypeTag → List Nat → Option Value
  | TypeTag.str, payload => some (Value.str payload)
  | TypeTag.intSeq, payload =>
    if payload.length % 4 = 0 then some (Value.intSeq (decodeInts payload)) else none

/-- A value is valid when its integer elements fit in 32 signed bits. -/
def Value.valid : Value → Bool
  | Value.str _ => true
  | Value.intSeq xs =>
    xs.all (fun i => decide (-2147483648 ≤ i) && decide (i < 2147483648))

/-- Agreement of a value with a declared type tag. -/
def Value.hasTag : Value → TypeTag → Bool
  | Value.str _, TypeTag.str => true
  | Value.intSeq _, TypeTag.intSeq => true
  | _, _ => false

/-- A slot is valid when a held value belongs to an active slot, agrees
with the declared type and is itself valid. -/
def Slot.valid (s : Slot) : Bool :=
  match s.value with
  | none => true
  | some v =>
    decide (s.field.state = FieldState.active) && v.hasTag s.field.tag && v.valid

/-- A table instance is valid when its field ids are pairwise distinct and
every slot is valid. -/
def tableValid (t : List Slot) : Bool :=
  decide ((t.map (fun s => s.field.fieldId)).Nodup) && t.all Slot.valid

/-- The schema descriptor of a table instance. -/
def schemaOf (t : List Slot) : Schema := t.map Slot.field

/-- The decoder initialisation: every slot of the target schema starts
absent. -/
def initSlots (sch : Schema) : List Slot := sch.map (fun f => Slot.mk f none)

/-- The wire contribution of one slot: active slots holding a value yield
their id and value, empty and retired slots yield nothing. -/
def presentOf (s : Slot) : Option (Nat × Value) :=
  match s.field.state, s.value with
  | FieldState.active, some v => some (s.field.fieldId, v)
  | _, _ => none

/-- The present active entries of a table instance, in declaration
order. -/
def presentEntries (t : List Slot) : List (Nat × Value) := t.filterMap presentOf

/-- Ordered insertion of an entry by field id. -/
def insertFid (e : Nat × Value) : List (Nat × Value) → List (Nat × Value)
  | [] => [e]
  | x :: xs => if e.1 ≤ x.1 then e :: x :: xs else x :: insertFid e xs

/-- Insertion sort of entries into ascending field id order, the order the
encoder writes. -/
def sortByFid : List (Nat × Value) → List (Nat × Value)
  | [] => []
  | e :: es => insertFid e (sortByFid es)

/-- Wire bytes of one entry: the varint field id followed by the framed
value. -/
def entryBytes (e : Nat × Value) : List Nat :=
  varintEncode e.1 ++ frameValue e.2

/-- Wire bytes of an entry list. -/
def entriesBytes : List (Nat × Value) → List Nat
  | [] => []
  | e :: es => entryBytes e ++ entriesBytes es

/-- Modelled from the spec: the table encoder. It collects the present
active entries in ascending field id order and writes their count followed
by each entry. -/
def encode (t : List Slot) : List Nat :=
  varintEncode (sortByFid (presentEntries t)).length ++
    entriesBytes (sortByFid (presentEntries t))

/-- Modelled from the spec: the decode error kinds relevant to the wire
level. -/
inductive DecodeError where
  | truncated
  | typeMismatch

deriving instance DecidableEq for DecodeError

/-- Modelled from the spec: reconciliation of one decoded wire entry with
the target slots. An id that is unknown or retired in the target leaves
every slot untouched; an active id stores the parsed payload, and a payload
incompatible with the declared type fails the whole record. -/
def applyEntry (fid : Nat) (payload : List Nat) : List Slot → Except DecodeError (List Slot)
  | [] => Except.ok []
  | s :: rest =>
    if s.field.fieldId = fid then
      match s.field.state with
      | FieldState.retired => Except.ok (s :: rest)
      | FieldState.active =>
        match parseValue s.field.tag payload with
        | none => Except.error DecodeError.typeMismatch
        | some v => Except.ok (Slot.mk s.field (some v) :: rest)
    else
      match applyEntry fid payload rest with
      | Except.error e => Except.error e
      | Except.ok rest2 => Except.ok (s :: rest2)

/-- Modelled from the spec: the decoder loop. It reads the announced number
of entries, each a varint field id and a length-prefixed payload, failing
with a truncation error when the stream ends inside a field. -/
def decodeEntries : Nat → List Nat → List Slot → Except DecodeError (List Slot)
  | 0, _, acc => Except.ok acc
  | Nat.succ n, bytes, acc =>
    match varintDecode bytes with
    | none => Except.error DecodeError.truncated
    | some (fid, rest) =>
      match varintDecode rest with
      | none => Except.error DecodeError.truncated
      | some (len, rest2) =>
        if len ≤ rest2.length then
          match applyEntry fid (rest2.take len) acc with
          | Except.error e => Except.error e
          | Except.ok acc2 => decodeEntries n (rest2.drop len) acc2
        else Except.error DecodeError.truncated

/-- Modelled from the spec: the table decoder. It reads the entry count and
reconciles that many entries against the target schema, whose slots all
start absent. -/
def decode (bytes : List Nat) (target : Schema) : Except DecodeError (List Slot) :=
  match varintDecode bytes with
  | none => Except.error DecodeError.truncated
  | some (count, rest) => decodeEntries count rest (initSlots target)

/-- Reference application of a list of already-parsed entries, used to
state what the decoder loop computes on well-formed wire bytes. -/
def applyEntries : List (Nat × Value) → List Slot → Except DecodeError (List Slot)
  | [], acc => Except.ok acc
  | (fid, v) :: es, acc =>
    match applyEntry fid (framePayload v) acc with
    | Except.error e => Except.error e
    | Except.ok acc2 => applyEntries es acc2

/-- Lookup of the first entry carrying a given field id. -/
def lookupEntry (fid : Nat) : List (Nat × Value) → Option Value
  | [] => none
  | (f, v) :: es => if f = fid then some v else lookupEntry fid es

/-- The effect of reconciling one entry on one slot, stated pointwise. -/
def applyOne (fid : Nat) (payload : List Nat) (s : Slot) : Slot :=
  if s.field.fieldId = fid then
    match s.field.state with
    | FieldState.active =>
      match parseValue s.field.tag payload with
      | some pv => Slot.mk s.field (some pv)
      | none => s
    | FieldState.retired => s
  else s

/-- The effect of reconciling a whole entry list on one slot, stated
pointwise. -/
def updateBy (es : List (Nat × Value)) (s : Slot) : Slot :=
  match s.field.state, lookupEntry s.field.fieldId es with
  | FieldState.active, some v =>
    match parseValue s.field.tag (framePayload v) with
    | some pv => Slot.mk s.field (some pv)
    | none => s
  | _, _ => s

/-- The schema of version 1 of TableA in examples/table.cpp: one active
string entry with id 0. -/
def fieldA : SchemaField := SchemaField.mk 0 TypeTag.str FieldState.active

/-- The active int sequence entry with id 1 added by version 2 of TableA in
examples/table.cpp. -/
def fieldB : SchemaField := SchemaField.mk 1 TypeTag.intSeq FieldState.active

/-- The entry with id 1 as retired by version 3 of TableA in
examples/table.cpp. -/
def fieldBRetired : SchemaField := SchemaField.mk 1 TypeTag.intSeq FieldState.retired

/-- Schema descriptor of version1::TableA. -/
def schemaV1 : Schema := [fieldA]

/-- Schema descriptor of version2::TableA. -/
def schemaV2 : Schema := [fieldA, fieldB]

/-- Schema descriptor of version3::TableA. -/
def schemaV3 : Schema := [fieldA, fieldBRetired]

/-- Modelled from the spec: the Entry type of a table, an optionally
present value with presence test, read, write and clear. -/
structure TableEntry (T : Type) where
  value : Option T

deriving instance DecidableEq for TableEntry

/-- A default-constructed entry holds no value. -/
def TableEntry.empty (T : Type) : TableEntry T := TableEntry.mk none

/-- The boolean conversion of an entry: its presence test. -/
def TableEntry.toBool {T : Type} (e : TableEntry T) : Bool := e.value.isSome

/-- Writing a value makes the entry present. -/
def TableEntry.set {T : Type} (_ : TableEntry T) (v : T) : TableEntry T :=
  TableEntry.mk (some v)

/-- Clearing an entry makes it absent. -/
def TableEntry.clear {T : Type} (_ : TableEntry T) : TableEntry T :=
  TableEntry.mk none

/-- Reading an entry, defined only when the presence test holds. -/
def TableEntry.get {T : Type} (e : TableEntry T) (h : e.toBool = true) : T :=
  e.value.get (by simpa [TableEntry.toBool] using h)

theorem varintDecode_encode (n : Nat) (rest : List Nat) :
    varintDecode (varintEncode n ++ rest) = some (n, rest) := by
  induction n using Nat.strong_induction_on with
  | _ n ih =>
    rw [varintEncode]
    split
    · rename_i h
      simp [varintDecode, h]
    · rename_i h
      have h2 : ¬ (n % 128 + 128 < 128) := by omega
      simp only [List.cons_append, varintDecode, if_neg h2, List.append_eq,
        ih (n / 128) (by omega)]
      have h3 : n % 128 + 128 - 128 + 128 * (n / 128) = n := by omega
      rw [h3]

theorem decodeIntBytes_encodeInt (i : Int) (h1 : -2147483648 ≤ i)
    (h2 : i < 2147483648) :
    decodeIntBytes ((i % 4294967296).toNat % 256)
      ((i % 4294967296).toNat / 256 % 256)
      ((i % 4294967296).toNat / 65536 % 256)
      ((i % 4294967296).toNat / 16777216 % 256) = i := by
  unfold decodeIntBytes
  split <;> omega

theorem length_encodeInt (i : Int) : (encodeInt i).length = 4 := by
  simp [encodeInt]

theorem length_encodeInts (xs : List Int) :
    (encodeInts xs).length = 4 * xs.length := by
  induction xs with
  | nil => simp [encodeInts]
  | cons i xs ih => simp [encodeInts, length_encodeInt, ih]; omega

theorem decodeInts_encodeInts (xs : List Int)
    (h : ∀ i ∈ xs, -2147483648 ≤ i ∧ i < 2147483648) :
    decodeInts (encodeInts xs) = xs := by
  induction xs with
  | nil => rfl
  | cons i xs ih =>
    have hi := h i (by simp)
    simp only [encodeInts, encodeInt, List.cons_append, List.append_eq,
      List.nil_append, decodeInts]
    rw [decodeIntBytes_encodeInt i hi.1 hi.2, ih (fun j hj => h j (by simp [hj]))]

theorem parseValue_framePayload (v : Value) (tag : TypeTag)
    (h1 : v.hasTag tag = true) (h2 : v.valid = true) :
    parseValue tag (framePayload v) = some v := by
  cases v with
  | str s =>
    cases tag with
    | str => rfl
    | intSeq => simp [Value.hasTag] at h1
  | intSeq xs =>
    cases tag with
    | str => simp [Value.hasTag] at h1
    | intSeq =>
      simp only [Value.valid, List.all_eq_true, Bool.and_eq_true,
        decide_eq_true_eq] at h2
      simp only [parseValue, framePayload, length_encodeInts]
      rw [if_pos (by omega)]
      rw [decodeInts_encodeInts xs (fun i hi => (h2 i hi))]

theorem decodeEntries_step (n fid : Nat) (v : Value) (rest : List Nat)
    (acc : List Slot) :
    decodeEntries (n + 1) (entryBytes (fid, v) ++ rest) acc =
      match applyEntry fid (framePayload v) acc with
      | Except.error e => Except.error e
      | Except.ok acc2 => decodeEntries n rest acc2 := by
  have hle : (framePayload v).length ≤ (framePayload v ++ rest).length := by
    simp
  simp only [entryBytes, frameValue, List.append_assoc, decodeEntries,
    varintDecode_encode, List.take_left, List.drop_left, hle, if_true]

theorem decodeEntries_entriesBytes (es : List (Nat × Value)) (tail : List Nat)
    (acc : List Slot) :
    decodeEntries es.length (entriesBytes es ++ tail) acc = applyEntries es acc := by
  induction es generalizing acc with
  | nil => rfl
  | cons e es ih =>
    obtain ⟨fid, v⟩ := e
    rw [List.length_cons]
    show decodeEntries (es.length + 1) (entriesBytes ((fid, v) :: es) ++ tail) acc = _
    rw [entriesBytes, List.append_assoc, decodeEntries_step]
    rw [applyEntries]
    cases applyEntry fid (framePayload v) acc with
    | error e => rfl
    | ok acc2 => exact ih acc2

theorem decode_encode_eq (t : List Slot) (target : Schema) :
    decode (encode t) target =
      applyEntries (sortByFid (presentEntries t)) (initSlots target) := by
  have h := decodeEntries_entriesBytes (sortByFid (presentEntries t)) []
    (initSlots target)
  rw [List.append_nil] at h
  simp only [decode, encode, varintDecode_encode]
  exact h

theorem insertFid_perm (e : Nat × Value) (l : List (Nat × Value)) :
    (insertFid e l).Perm (e :: l) := by
  induction l with
  | nil => exact List.Perm.refl _
  | cons x xs ih =>
    rw [insertFid]
    split
    · exact List.Perm.refl _
    · exact (List.Perm.cons x ih).trans (List.Perm.swap e x xs)

theorem sortByFid_perm (l : List (Nat × Value)) : (sortByFid l).Perm l := by
  induction l with
  | nil => exact List.Perm.refl _
  | cons e es ih =>
    exact (insertFid_perm e (sortByFid es)).trans (List.Perm.cons e ih)

theorem insertFid_sorted (e : Nat × Value) (l : List (Nat × Value))
    (h : l.Pairwise (fun a b => a.1 ≤ b.1)) :
    (insertFid e l).Pairwise (fun a b => a.1 ≤ b.1) := by
  induction l with
  | nil => simp [insertFid]
  | cons x xs ih =>
    rw [List.pairwise_cons] at h
    rw [insertFid]
    split
    · rename_i hle
      rw [List.pairwise_cons]
      refine ⟨?_, List.pairwise_cons.mpr h⟩
      intro b hb
      rcases List.mem_cons.mp hb with rfl | hb2
      · exact hle
      · exact le_trans hle (h.1 b hb2)
    · rename_i hgt
      rw [List.pairwise_cons]
      refine ⟨?_, ih h.2⟩
      intro b hb
      rcases List.mem_cons.mp ((insertFid_perm e xs).mem_iff.mp hb) with rfl | hb2
      · omega
      · exact h.1 b hb2

theorem sortByFid_sorted (l : List (Nat × Value)) :
    (sortByFid l).Pairwise (fun a b => a.1 ≤ b.1) := by
  induction l with
  | nil => simp [sortByFid]
  | cons e es ih => exact insertFid_sorted e (sortByFid es) ih

theorem sortByFid_fst_nodup (l : List (Nat × Value))
    (h : (l.map Prod.fst).Nodup) : ((sortByFid l).map Prod.fst).Nodup := by
  exact (((sortByFid_perm l).map Prod.fst).nodup_iff).mpr h

theorem lookupEntry_eq_none (fid : Nat) (es : List (Nat × Value))
    (h : fid ∉ es.map Prod.fst) : lookupEntry fid es = none := by
  induction es with
  | nil => rfl
  | cons e es ih =>
    obtain ⟨f, v⟩ := e
    simp only [List.map_cons, List.mem_cons, not_or] at h
    rw [lookupEntry, if_neg (fun hf => h.1 hf.symm), ih h.2]

theorem lookupEntry_eq_some (fid : Nat) (v : Value) (es : List (Nat × Value))
    (hnd : (es.map Prod.fst).Nodup) (hmem : (fid, v) ∈ es) :
    lookupEntry fid es = some v := by
  induction es with
  | nil => simp at hmem
  | cons e es ih =>
    obtain ⟨f, w⟩ := e
    simp only [List.map_cons, List.nodup_cons] at hnd
    rcases List.mem_cons.mp hmem with heq | hmem2
    · cases heq
      rw [lookupEntry, if_pos rfl]
    · have hf : ¬ (f = fid) := by
        intro heq2
        subst heq2
        exact hnd.1 (List.mem_map.mpr ⟨(f, v), hmem2, rfl⟩)
      rw [lookupEntry, if_neg hf, ih hnd.2 hmem2]

theorem presentOf_of_active (s : Slot) (v : Value)
    (h1 : s.field.state = FieldState.active) (h2 : s.value = some v) :
    presentOf s = some (s.field.fieldId, v) := by
  unfold presentOf
  rw [h1, h2]

theorem presentOf_inv (s : Slot) (fid : Nat) (v : Value)
    (h : presentOf s = some (fid, v)) :
    s.field.state = FieldState.active ∧ s.value = some v ∧
      s.field.fieldId = fid := by
  obtain ⟨⟨f, tag, st⟩, val⟩ := s
  cases st <;> cases val <;> simp_all [presentOf]

theorem mem_presentEntries (t : List Slot) (fid : Nat) (v : Value) :
    (fid, v) ∈ presentEntries t ↔
      ∃ s ∈ t, s.field.state = FieldState.active ∧ s.value = some v ∧
        s.field.fieldId = fid := by
  unfold presentEntries
  rw [List.mem_filterMap]
  constructor
  · rintro ⟨s, hs, hps⟩
    exact ⟨s, hs, presentOf_inv s fid v hps⟩
  · rintro ⟨s, hs, h1, h2, h3⟩
    exact ⟨s, hs, by rw [presentOf_of_active s v h1 h2, h3]⟩

theorem presentEntries_fst_sublist (t : List Slot) :
    ((presentEntries t).map Prod.fst).Sublist
      (t.map (fun s => s.field.fieldId)) := by
  induction t with
  | nil => simp [presentEntries]
  | cons s t ih =>
    show ((List.filterMap presentOf (s :: t)).map Prod.fst).Sublist _
    cases hp : presentOf s with
    | none =>
      simp only [List.filterMap_cons, hp, List.map_cons]
      exact ih.cons _
    | some e =>
      obtain ⟨fid, v⟩ := e
      obtain ⟨h1, h2, h3⟩ := presentOf_inv s fid v hp
      simp only [List.filterMap_cons, hp, List.map_cons]
      rw [← h3]
      exact ih.cons₂ _

theorem applyOne_field (fid : Nat) (payload : List Nat) (s : Slot) :
    (applyOne fid payload s).field = s.field := by
  obtain ⟨⟨f, tag, st⟩, val⟩ := s
  by_cases h : f = fid
  · cases st
    · simp only [applyOne, h, if_true, reduceIte]
      cases parseValue tag payload <;> simp
    · simp [applyOne, h]
  · simp [applyOne, h]

theorem applyOne_not_mem (fid : Nat) (payload : List Nat) (s : Slot)
    (h : ¬ (s.field.fieldId = fid)) : applyOne fid payload s = s := by
  unfold applyOne
  rw [if_neg h]

theorem applyOne_retired (fid : Nat) (payload : List Nat) (s : Slot)
    (h : s.field.fieldId = fid) (h2 : s.field.state = FieldState.retired) :
    applyOne fid payload s = s := by
  obtain ⟨⟨f, tag, st⟩, val⟩ := s
  cases st
  · simp at h2
  · simp [applyOne, h]

theorem applyOne_active (fid : Nat) (payload : List Nat) (s : Slot) (pv : Value)
    (h : s.field.fieldId = fid) (h2 : s.field.state = FieldState.active)
    (h3 : parseValue s.field.tag payload = some pv) :
    applyOne fid payload s = Slot.mk s.field (some pv) := by
  obtain ⟨⟨f, tag, st⟩, val⟩ := s
  have hf : f = fid := h
  subst hf
  cases st
  · simp only at h3
    simp [applyOne, h3]
  · simp at h2

theorem applyEntry_eq_map (fid : Nat) (payload : List Nat) (acc : List Slot)
    (hnd : (acc.map (fun s => s.field.fieldId)).Nodup)
    (hp : ∀ s ∈ acc, s.field.fieldId = fid →
      s.field.state = FieldState.active →
      (parseValue s.field.tag payload).isSome = true) :
    applyEntry fid payload acc = Except.ok (acc.map (applyOne fid payload)) := by
  induction acc with
  | nil => rfl
  | cons s rest ih =>
    simp only [List.map_cons, List.nodup_cons] at hnd
    by_cases hfid : s.field.fieldId = fid
    · have hrest : rest.map (applyOne fid payload) = rest := by
        have hcg : ∀ x ∈ rest, applyOne fid payload x = id x := by
          intro x hx
          simp only [id_eq]
          apply applyOne_not_mem
          intro hx2
          exact hnd.1 (List.mem_map.mpr ⟨x, hx, hx2.trans hfid.symm⟩)
        rw [List.map_congr_left hcg, List.map_id]
      rw [applyEntry, if_pos hfid]
      cases hst : s.field.state with
      | retired =>
        rw [List.map_cons, hrest, applyOne_retired fid payload s hfid hst]
      | active =>
        have hps := hp s (by simp) hfid hst
        cases hpv : parseValue s.field.tag payload with
        | none => rw [hpv] at hps; simp at hps
        | some pv =>
          rw [List.map_cons, hrest,
            applyOne_active fid payload s pv hfid hst hpv]
    · rw [applyEntry, if_neg hfid,
        ih hnd.2 (fun s2 hs2 => hp s2 (List.mem_cons_of_mem s hs2)),
        List.map_cons, applyOne_not_mem fid payload s hfid]

theorem updateBy_nil (s : Slot) : updateBy [] s = s := by
  obtain ⟨⟨f, tag, st⟩, val⟩ := s
  cases st <;> simp [updateBy, lookupEntry]

theorem updateBy_cons (fid : Nat) (v : Value) (es : List (Nat × Value))
    (s : Slot) (hnotin : fid ∉ es.map Prod.fst) :
    updateBy es (applyOne fid (framePayload v) s) = updateBy ((fid, v) :: es) s := by
  obtain ⟨⟨f, tag, st⟩, val⟩ := s
  by_cases h : f = fid
  · subst h
    have hnone : lookupEntry f es = none := lookupEntry_eq_none f es hnotin
    cases st with
    | active =>
      cases hpv : parseValue tag (framePayload v) with
      | some pv => simp [applyOne, updateBy, lookupEntry, hpv, hnone]
      | none => simp [applyOne, updateBy, lookupEntry, hpv, hnone]
    | retired => simp [applyOne, updateBy, lookupEntry, hnone]
  · rw [applyOne_not_mem fid (framePayload v) _ h]
    unfold updateBy
    rw [show lookupEntry (Slot.mk (SchemaField.mk f tag st) val).field.fieldId
        ((fid, v) :: es) = lookupEntry f es
      from by rw [lookupEntry, if_neg (fun hh => h hh.symm)]]

theorem applyEntries_eq_map (es : List (Nat × Value)) (acc : List Slot)
    (hnd : (acc.map (fun s => s.field.fieldId)).Nodup)
    (hes : (es.map Prod.fst).Nodup)
    (hok : ∀ s ∈ acc, s.field.state = FieldState.active →
      ∀ v, lookupEntry s.field.fieldId es = some v →
        (parseValue s.field.tag (framePayload v)).isSome = true) :
    applyEntries es acc = Except.ok (acc.map (updateBy es)) := by
  induction es generalizing acc with
  | nil =>
    rw [applyEntries]
    congr 1
    rw [(List.map_congr_left (fun s _ => updateBy_nil s)).trans (List.map_id acc)]
  | cons e es ih =>
    obtain ⟨fid, v⟩ := e
    simp only [List.map_cons, List.nodup_cons] at hes
    rw [applyEntries, applyEntry_eq_map fid (framePayload v) acc hnd ?hp]
    case hp =>
      intro s hs hsf hsa
      have := hok s hs hsa v (by rw [lookupEntry, if_pos hsf.symm])
      exact this
    have hnd2 : ((acc.map (applyOne fid (framePayload v))).map
        (fun s => s.field.fieldId)).Nodup := by
      rw [List.map_map]
      have : ((fun s => s.field.fieldId) ∘ applyOne fid (framePayload v)) =
          fun s : Slot => s.field.fieldId := by
        funext s
        simp [Function.comp, applyOne_field]
      rw [this]
      exact hnd
    have hok2 : ∀ s2 ∈ acc.map (applyOne fid (framePayload v)),
        s2.field.state = FieldState.active →
        ∀ w, lookupEntry s2.field.fieldId es = some w →
          (parseValue s2.field.tag (framePayload w)).isSome = true := by
      intro s2 hs2 hsa w hw
      obtain ⟨s, hs, rfl⟩ := List.mem_map.mp hs2
      rw [applyOne_field] at hsa hw ⊢
      by_cases hsf : s.field.fieldId = fid
      · rw [hsf, lookupEntry_eq_none fid es hes.1] at hw
        cases hw
      · refine hok s hs hsa w ?_
        rw [lookupEntry, if_neg (fun hh => hsf hh.symm)]
        exact hw
    show applyEntries es (acc.map (applyOne fid (framePayload v))) =
      Except.ok (acc.map (updateBy ((fid, v) :: es)))
    rw [ih (acc.map (applyOne fid (framePayload v))) hnd2 hes.2 hok2]
    congr 1
    rw [List.map_map]
    apply List.map_congr_left
    intro s _
    exact updateBy_cons fid v es s hes.1

theorem mem_of_lookupEntry (fid : Nat) (v : Value) (es : List (Nat × Value))
    (h : lookupEntry fid es = some v) : (fid, v) ∈ es := by
  induction es with
  | nil => cases h
  | cons e es ih =>
    obtain ⟨f, w⟩ := e
    rw [lookupEntry] at h
    by_cases hf : f = fid
    · rw [if_pos hf] at h
      cases h
      subst hf
      exact List.mem_cons_self _ _
    · rw [if_neg hf] at h
      exact List.mem_cons_of_mem _ (ih h)

theorem strictSorted_eq_of_perm : ∀ (l1 l2 : List (Nat × Value)),
    l1.Perm l2 → l1.Pairwise (fun a b => a.1 < b.1) →
    l2.Pairwise (fun a b => a.1 < b.1) → l1 = l2 := by
  intro l1
  induction l1 with
  | nil =>
    intro l2 hp _ _
    exact (hp.symm.eq_nil).symm
  | cons a l1 ih =>
    intro l2 hp hs1 hs2
    have ha2 : a ∈ l2 := hp.mem_iff.mp (List.mem_cons_self a l1)
    cases l2 with
    | nil => simp at ha2
    | cons b l2 =>
      have hab : a = b := by
        rcases List.mem_cons.mp ha2 with h | h
        · exact h
        · have hb : b ∈ a :: l1 := hp.symm.mem_iff.mp (List.mem_cons_self b l2)
          rcases List.mem_cons.mp hb with h2 | h2
          · exact h2.symm
          · have h3 : a.1 < b.1 := (List.pairwise_cons.mp hs1).1 b h2
            have h4 : b.1 < a.1 := (List.pairwise_cons.mp hs2).1 a h
            omega
      subst hab
      rw [ih l2 hp.cons_inv (List.pairwise_cons.mp hs1).2
        (List.pairwise_cons.mp hs2).2]

theorem sortByFid_strict (l : List (Nat × Value))
    (h : (l.map Prod.fst).Nodup) :
    (sortByFid l).Pairwise (fun a b => a.1 < b.1) := by
  have hle := sortByFid_sorted l
  have hnd : ((sortByFid l).map Prod.fst).Nodup := sortByFid_fst_nodup l h
  have hne : (sortByFid l).Pairwise (fun a b => a.1 ≠ b.1) :=
    List.pairwise_map.mp hnd
  exact (hle.and hne).imp (fun hab => lt_of_le_of_ne hab.1 hab.2)

theorem sortByFid_eq_of_perm (l1 l2 : List (Nat × Value))
    (hperm : l1.Perm l2) (hnd : (l1.map Prod.fst).Nodup) :
    sortByFid l1 = sortByFid l2 := by
  have hnd2 : (l2.map Prod.fst).Nodup := ((hperm.map Prod.fst).nodup_iff).mp hnd
  apply strictSorted_eq_of_perm
  · exact (sortByFid_perm l1).trans (hperm.trans (sortByFid_perm l2).symm)
  · exact sortByFid_strict l1 hnd
  · exact sortByFid_strict l2 hnd2

theorem encode_eq_of_present_perm (t1 t2 : List Slot)
    (hperm : (presentEntries t1).Perm (presentEntries t2))
    (hnd : ((presentEntries t1).map Prod.fst).Nodup) :
    encode t1 = encode t2 := by
  unfold encode
  rw [sortByFid_eq_of_perm _ _ hperm hnd]

theorem tableValid_parts (t : List Slot) (h : tableValid t = true) :
    (t.map (fun s => s.field.fieldId)).Nodup ∧ ∀ s ∈ t, Slot.valid s = true := by
  unfold tableValid at h
  simp only [Bool.and_eq_true, decide_eq_true_eq, List.all_eq_true] at h
  exact h

theorem slotValid_some (s : Slot) (v : Value) (h : Slot.valid s = true)
    (hv : s.value = some v) :
    s.field.state = FieldState.active ∧ v.hasTag s.field.tag = true ∧
      v.valid = true := by
  unfold Slot.valid at h
  rw [hv] at h
  simp only [Bool.and_eq_true, decide_eq_true_eq] at h
  exact ⟨h.1.1, h.1.2, h.2⟩

theorem slotValid_retired (s : Slot) (h : Slot.valid s = true)
    (hr : s.field.state = FieldState.retired) : s.value = none := by
  cases hv : s.value with
  | none => rfl
  | some v =>
    obtain ⟨ha, _, _⟩ := slotValid_some s v h hv
    rw [hr] at ha
    exact FieldState.noConfusion ha

theorem slot_eta_none (s : Slot) (hv : s.value = none) :
    Slot.mk s.field none = s := by
  obtain ⟨f, val⟩ := s
  cases hv
  rfl

theorem slot_eta_some (s : Slot) (v : Value) (hv : s.value = some v) :
    Slot.mk s.field (some v) = s := by
  obtain ⟨f, val⟩ := s
  cases hv
  rfl

theorem updateBy_active (es : List (Nat × Value)) (s : Slot) (v pv : Value)
    (ha : s.field.state = FieldState.active)
    (hlk : lookupEntry s.field.fieldId es = some v)
    (hpv : parseValue s.field.tag (framePayload v) = some pv) :
    updateBy es s = Slot.mk s.field (some pv) := by
  obtain ⟨⟨f, ftag, fst⟩, val⟩ := s
  have ha2 : fst = FieldState.active := ha
  subst ha2
  simp only at hlk hpv
  simp [updateBy, hlk, hpv]

theorem updateBy_no_entry (es : List (Nat × Value)) (s : Slot)
    (hlk : lookupEntry s.field.fieldId es = none) :
    updateBy es s = s := by
  obtain ⟨⟨f, ftag, fst⟩, val⟩ := s
  simp only at hlk
  cases fst <;> simp [updateBy, hlk]

theorem updateBy_retired (es : List (Nat × Value)) (s : Slot)
    (hr : s.field.state = FieldState.retired) :
    updateBy es s = s := by
  obtain ⟨⟨f, ftag, fst⟩, val⟩ := s
  have hr2 : fst = FieldState.retired := hr
  subst hr2
  simp [updateBy]

theorem decode_encode_roundtrip (t : List Slot) (h : tableValid t = true) :
    decode (encode t) (schemaOf t) = Except.ok t := by
  obtain ⟨hnd, hall⟩ := tableValid_parts t h
  have hpnd : ((presentEntries t).map Prod.fst).Nodup :=
    (presentEntries_fst_sublist t).nodup hnd
  have hsnd : ((sortByFid (presentEntries t)).map Prod.fst).Nodup :=
    sortByFid_fst_nodup _ hpnd
  have hmem : ∀ (fid : Nat) (v : Value),
      (fid, v) ∈ sortByFid (presentEntries t) ↔ (fid, v) ∈ presentEntries t :=
    fun fid v => (sortByFid_perm (presentEntries t)).mem_iff
  have hinit : initSlots (schemaOf t) = t.map (fun s => Slot.mk s.field none) := by
    unfold initSlots schemaOf
    rw [List.map_map]
    rfl
  have hnd2 : ((t.map (fun s => Slot.mk s.field none)).map
      (fun s => s.field.fieldId)).Nodup := by
    rw [List.map_map]
    exact hnd
  have hok : ∀ s2 ∈ t.map (fun s => Slot.mk s.field none),
      s2.field.state = FieldState.active →
      ∀ v, lookupEntry s2.field.fieldId (sortByFid (presentEntries t)) = some v →
        (parseValue s2.field.tag (framePayload v)).isSome = true := by
    intro s2 hs2 hsa v hlk
    obtain ⟨s, hs, rfl⟩ := List.mem_map.mp hs2
    replace hlk : lookupEntry s.field.fieldId (sortByFid (presentEntries t)) =
      some v := hlk
    have hmem2 : (s.field.fieldId, v) ∈ presentEntries t :=
      (hmem _ _).mp (mem_of_lookupEntry _ _ _ hlk)
    obtain ⟨s3, hs3, ha3, hv3, hf3⟩ := (mem_presentEntries t _ v).mp hmem2
    have hseq : s3 = s := List.inj_on_of_nodup_map hnd hs3 hs hf3
    rw [hseq] at hv3
    obtain ⟨_, htag, hval⟩ := slotValid_some s v (hall s hs) hv3
    show (parseValue s.field.tag (framePayload v)).isSome = true
    rw [parseValue_framePayload v _ htag hval]
    rfl
  rw [decode_encode_eq, hinit,
    applyEntries_eq_map (sortByFid (presentEntries t)) _ hnd2 hsnd hok]
  congr 1
  rw [List.map_map]
  have hpoint : ∀ s ∈ t,
      updateBy (sortByFid (presentEntries t)) (Slot.mk s.field none) = s := by
    intro s hs
    cases hv : s.value with
    | some v =>
      obtain ⟨ha, htag, hval⟩ := slotValid_some s v (hall s hs) hv
      have hmem2 : (s.field.fieldId, v) ∈ sortByFid (presentEntries t) :=
        (hmem _ _).mpr ((mem_presentEntries t _ v).mpr ⟨s, hs, ha, hv, rfl⟩)
      have hlk : lookupEntry s.field.fieldId (sortByFid (presentEntries t)) =
        some v := lookupEntry_eq_some _ v _ hsnd hmem2
      rw [updateBy_active (sortByFid (presentEntries t))
        (Slot.mk s.field none) v v ha hlk
        (parseValue_framePayload v s.field.tag htag hval)]
      exact slot_eta_some s v hv
    | none =>
      cases hst : s.field.state with
      | retired =>
        rw [updateBy_retired (sortByFid (presentEntries t))
          (Slot.mk s.field none) hst]
        exact slot_eta_none s hv
      | active =>
        have hnin : s.field.fieldId ∉
            (sortByFid (presentEntries t)).map Prod.fst := by
          intro hin
          obtain ⟨e, hein, hfst⟩ := List.mem_map.mp hin
          obtain ⟨f2, v2⟩ := e
          obtain ⟨s3, hs3, ha3, hv3, hf3⟩ :=
            (mem_presentEntries t f2 v2).mp ((hmem f2 v2).mp hein)
          have hseq : s3 = s :=
            List.inj_on_of_nodup_map hnd hs3 hs (by rw [hf3]; exact hfst)
          rw [hseq, hv] at hv3
          cases hv3
        rw [updateBy_no_entry (sortByFid (presentEntries t))
          (Slot.mk s.field none)
          (lookupEntry_eq_none _ _ hnin)]
        exact slot_eta_none s hv
  have hcg : ∀ s ∈ t,
      (updateBy (sortByFid (presentEntries t)) ∘ (fun s => Slot.mk s.field none))
        s = id s := fun s hs => hpoint s hs
  rw [List.map_congr_left hcg, List.map_id]

theorem presentEntries_length (t : List Slot) :
    (presentEntries t).length =
      (t.filter (fun s2 => decide (s2.field.state = FieldState.active) &&
        s2.value.isSome)).length := by
  induction t with
  | nil => rfl
  | cons s t ih =>
    obtain ⟨⟨f, ftag, fst⟩, val⟩ := s
    unfold presentEntries at ih ⊢
    cases fst <;> cases val <;>
      simp [List.filterMap_cons, List.filter_cons, presentOf, ih]

/-- Claim C1: for every valid table instance, decoding the bytes produced by
encoding it, against the same schema descriptor, succeeds and yields an
instance equal to the original slot by slot, with the same presence and the
same value wherever present. -/
theorem claim_C1 (t : List Slot) (h : tableValid t = true) :
    decode (encode t) (schemaOf t) = Except.ok t :=
  decode_encode_roundtrip t h

/-- Witness for claim C1 at a concrete version2 instance holding both a
string and an int sequence. -/
theorem claim_C1_witness :
    tableValid [Slot.mk fieldA (some (Value.str [86, 50])),
      Slot.mk fieldB (some (Value.intSeq [1, 2, 3, 4]))] = true ∧
    decode (encode [Slot.mk fieldA (some (Value.str [86, 50])),
        Slot.mk fieldB (some (Value.intSeq [1, 2, 3, 4]))])
      (schemaOf [Slot.mk fieldA (some (Value.str [86, 50])),
        Slot.mk fieldB (some (Value.intSeq [1, 2, 3, 4]))]) =
      Except.ok [Slot.mk fieldA (some (Value.str [86, 50])),
        Slot.mk fieldB (some (Value.intSeq [1, 2, 3, 4]))] :=
  ⟨by decide, claim_C1 _ (by decide)⟩

/-- Claim C2: forward compatibility. A version2 instance with both the
string field a and the int sequence field b set, encoded and then decoded
with the version1 schema that declares only a, succeeds and yields a equal
to the original; the unknown field id 1 is skipped via its framing and
affects no slot. -/
theorem claim_C2 (sa : List Nat) (xs : List Int) :
    decode (encode [Slot.mk fieldA (some (Value.str sa)),
        Slot.mk fieldB (some (Value.intSeq xs))]) schemaV1 =
      Except.ok [Slot.mk fieldA (some (Value.str sa))] := by
  rw [decode_encode_eq]
  simp [presentEntries, presentOf, fieldA, fieldB, schemaV1,
    sortByFid, insertFid, initSlots, applyEntries, applyEntry, parseValue,
    framePayload]

/-- Claim C3: backward compatibility. A version1 instance with only the
string field a set, encoded and then decoded with the version2 schema
declaring both a and b, succeeds, yields a equal to the original and leaves
the new field b absent. -/
theorem claim_C3 (sa : List Nat) :
    decode (encode [Slot.mk fieldA (some (Value.str sa))]) schemaV2 =
      Except.ok [Slot.mk fieldA (some (Value.str sa)), Slot.mk fieldB none] := by
  rw [decode_encode_eq]
  simp [presentEntries, presentOf, fieldA, fieldB, schemaV2,
    sortByFid, insertFid, initSlots, applyEntries, applyEntry, parseValue,
    framePayload]

/-- Claim C4: retirement. A wire record carrying a value for field b,
written under the version2 schema where b is active, decoded under the
version3 schema where b is retired, succeeds with no error and yields an
instance where b carries no value: the bytes for b are discarded and no
slot is affected. -/
theorem claim_C4 (sa : List Nat) (xs : List Int) :
    decode (encode [Slot.mk fieldA (some (Value.str sa)),
        Slot.mk fieldB (some (Value.intSeq xs))]) schemaV3 =
      Except.ok [Slot.mk fieldA (some (Value.str sa)),
        Slot.mk fieldBRetired none] := by
  rw [decode_encode_eq]
  simp [presentEntries, presentOf, fieldA, fieldB, fieldBRetired, schemaV3,
    sortByFid, insertFid, initSlots, applyEntries, applyEntry, parseValue,
    framePayload]

/-- Claim C5: encoding is deterministic. Two instances with the same
logical content, meaning their present active entries agree up to
permutation, encode to byte-identical output, so the bytes do not depend on
in-memory or assignment order. -/
theorem claim_C5 (t1 t2 : List Slot)
    (hnd : ((presentEntries t1).map Prod.fst).Nodup)
    (hperm : (presentEntries t1).Perm (presentEntries t2)) :
    encode t1 = encode t2 :=
  encode_eq_of_present_perm t1 t2 hperm hnd

/-- Witness for claim C5: the same two entries declared in swapped order
encode to the same bytes. -/
theorem claim_C5_witness :
    ((presentEntries [Slot.mk fieldA (some (Value.str [86])),
      Slot.mk fieldB (some (Value.intSeq [1]))]).map Prod.fst).Nodup ∧
    encode [Slot.mk fieldA (some (Value.str [86])),
        Slot.mk fieldB (some (Value.intSeq [1]))] =
      encode [Slot.mk fieldB (some (Value.intSeq [1])),
        Slot.mk fieldA (some (Value.str [86]))] :=
  ⟨by decide, claim_C5 _ _ (by decide) (by decide)⟩

/-- Claim C6: the encoder emits exactly the active entries holding a value.
Removing an empty active slot or a retired slot from an instance leaves the
wire record unchanged, and the entry count at the head of the wire record
equals the number of present active slots. -/
theorem claim_C6 (t t1 t2 : List Slot) (s : Slot)
    (hzero : s.value = none ∨ s.field.state = FieldState.retired) :
    encode (t1 ++ s :: t2) = encode (t1 ++ t2) ∧
    (varintDecode (encode t)).map Prod.fst =
      some (t.filter (fun s2 => decide (s2.field.state = FieldState.active) &&
        s2.value.isSome)).length := by
  have hps : presentOf s = none := by
    obtain ⟨⟨f, ftag, fst⟩, val⟩ := s
    rcases hzero with hz | hz
    · subst hz
      cases fst <;> rfl
    · subst hz
      cases val <;> rfl
  constructor
  · have hpe : presentEntries (t1 ++ s :: t2) = presentEntries (t1 ++ t2) := by
      unfold presentEntries
      simp only [List.filterMap_append, List.filterMap_cons, hps]
    unfold encode
    rw [hpe]
  · unfold encode
    rw [varintDecode_encode]
    simp only [Option.map]
    rw [(sortByFid_perm (presentEntries t)).length_eq, presentEntries_length]

/-- Witness for claim C6: an empty active slot contributes zero bytes and
the count equals the single present entry. -/
theorem claim_C6_witness :
    encode [Slot.mk fieldA (some (Value.str [86])), Slot.mk fieldB none] =
      encode [Slot.mk fieldA (some (Value.str [86]))] ∧
    (varintDecode (encode [Slot.mk fieldA (some (Value.str [86])),
        Slot.mk fieldB none])).map Prod.fst = some 1 := by
  have h := claim_C6
    [Slot.mk fieldA (some (Value.str [86])), Slot.mk fieldB none]
    [Slot.mk fieldA (some (Value.str [86]))] [] (Slot.mk fieldB none)
    (Or.inl rfl)
  exact ⟨h.1, by rw [h.2]; decide⟩

/-- Claim C7: a malformed wire record fails the whole decode with an
explicit error value. An empty stream, a truncated count varint, a count
announcing more entries than the stream holds, and a field whose payload is
shorter than its announced length all decode to the truncation error, for
every target schema. -/
theorem claim_C7 (target : Schema) :
    decode [] target = Except.error DecodeError.truncated ∧
    (∀ b, 128 ≤ b → decode [b] target = Except.error DecodeError.truncated) ∧
    (∀ c, decode (varintEncode (c + 1)) target =
      Except.error DecodeError.truncated) ∧
    (∀ fid len p, p.length < len →
      decode (varintEncode 1 ++ (varintEncode fid ++ (varintEncode len ++ p)))
        target = Except.error DecodeError.truncated) := by
  refine ⟨rfl, ?_, ?_, ?_⟩
  · intro b hb
    simp [decode, varintDecode, show ¬ b < 128 from by omega]
  · intro c
    have h0 : varintDecode (varintEncode (c + 1)) = some (c + 1, []) := by
      have h1 := varintDecode_encode (c + 1) []
      rwa [List.append_nil] at h1
    simp [decode, h0, decodeEntries, varintDecode]
  · intro fid len p hlt
    have hle : ¬ (len ≤ p.length) := by omega
    simp [decode, varintDecode_encode, decodeEntries, hle]

/-- Witness for claim C7 at concrete malformed inputs against the version1
schema. -/
theorem claim_C7_witness :
    decode [] schemaV1 = Except.error DecodeError.truncated ∧
    decode [200] schemaV1 = Except.error DecodeError.truncated ∧
    decode (varintEncode 3) schemaV1 = Except.error DecodeError.truncated ∧
    decode (varintEncode 1 ++ (varintEncode 0 ++ (varintEncode 5 ++ [1, 2])))
      schemaV1 = Except.error DecodeError.truncated := by
  obtain ⟨h1, h2, h3, h4⟩ := claim_C7 schemaV1
  exact ⟨h1, h2 200 (by omega), h3 2, h4 0 5 [1, 2] (by decide)⟩

/-- Claim C8: the wire record is the count of present entries followed by
exactly that many field id and value pairs in ascending field id order, and
permuting the declaration order of the slots leaves the record unchanged. -/
theorem claim_C8 (t : List Slot)
    (hnd : ((presentEntries t).map Prod.fst).Nodup) :
    encode t = varintEncode (sortByFid (presentEntries t)).length ++
        entriesBytes (sortByFid (presentEntries t)) ∧
    (sortByFid (presentEntries t)).Perm (presentEntries t) ∧
    (sortByFid (presentEntries t)).Pairwise (fun a b => a.1 < b.1) ∧
    ∀ u : List Slot, t.Perm u → encode u = encode t := by
  refine ⟨rfl, sortByFid_perm _, sortByFid_strict _ hnd, ?_⟩
  intro u hperm
  have hpe : (presentEntries u).Perm (presentEntries t) :=
    List.Perm.filterMap presentOf hperm.symm
  exact encode_eq_of_present_perm u t hpe (((hpe.map Prod.fst).nodup_iff).mpr hnd)

/-- Witness for claim C8: a table declared with field b before field a
still encodes as its count prefix followed by the sorted entries, and the
reversed declaration encodes identically. -/
theorem claim_C8_witness :
    encode [Slot.mk fieldB (some (Value.intSeq [5])),
        Slot.mk fieldA (some (Value.str [86]))] =
      varintEncode (sortByFid (presentEntries
          [Slot.mk fieldB (some (Value.intSeq [5])),
            Slot.mk fieldA (some (Value.str [86]))])).length ++
        entriesBytes (sortByFid (presentEntries
          [Slot.mk fieldB (some (Value.intSeq [5])),
            Slot.mk fieldA (some (Value.str [86]))])) ∧
    encode [Slot.mk fieldA (some (Value.str [86])),
        Slot.mk fieldB (some (Value.intSeq [5]))] =
      encode [Slot.mk fieldB (some (Value.intSeq [5])),
        Slot.mk fieldA (some (Value.str [86]))] := by
  have h := claim_C8 [Slot.mk fieldB (some (Value.intSeq [5])),
    Slot.mk fieldA (some (Value.str [86]))] (by decide)
  exact ⟨h.1, h.2.2.2 _ (by decide)⟩

/-- Claim C9: for every entry, the boolean conversion is true exactly when
the entry holds a value, reading returns that value whenever the conversion
is true, and a default constructed entry tests false. -/
theorem claim_C9 (T : Type) (e : TableEntry T) :
    (e.toBool = true ↔ ∃ v, e.value = some v) ∧
    (∀ v, e.value = some v → ∀ h2 : e.toBool = true, e.get h2 = v) ∧
    (TableEntry.empty T).toBool = false := by
  refine ⟨?_, ?_, rfl⟩
  · obtain ⟨val⟩ := e
    cases val <;> simp [TableEntry.toBool]
  · intro v hv h2
    obtain ⟨val⟩ := e
    cases hv
    rfl

/-- Witness for claim C9 at a concrete entry holding the number five. -/
theorem claim_C9_witness :
    ((TableEntry.empty Nat).set 5).toBool = true ∧
    ((TableEntry.empty Nat).set 5).get rfl = 5 ∧
    (TableEntry.empty Nat).toBool = false :=
  ⟨((claim_C9 Nat ((TableEntry.empty Nat).set 5)).1).mpr ⟨5, rfl⟩,
   (claim_C9 Nat ((TableEntry.empty Nat).set 5)).2.1 5 rfl rfl,
   (claim_C9 Nat (TableEntry.empty Nat)).2.2⟩

/-- Claim C10: a record written under the version3 schema, where field b is
retired and therefore never emitted, decoded with the version2 schema where
the same field id is active, succeeds and leaves the active slot b absent,
exactly like an ordinary missing field. -/
theorem claim_C10 (sa : List Nat) :
    decode (encode [Slot.mk fieldA (some (Value.str sa)),
        Slot.mk fieldBRetired none]) schemaV2 =
      Except.ok [Slot.mk fieldA (some (Value.str sa)), Slot.mk fieldB none] := by
  rw [decode_encode_eq]
  simp [presentEntries, presentOf, fieldA, fieldB, fieldBRetired, schemaV2,
    sortByFid, insertFid, initSlots, applyEntries, applyEntry, parseValue,
    framePayload]

/-- Witness for claim C2 at a concrete version2 instance. -/
theorem claim_C2_witness :
    decode (encode [Slot.mk fieldA (some (Value.str [86])),
        Slot.mk fieldB (some (Value.intSeq [7]))]) schemaV1 =
      Except.ok [Slot.mk fieldA (some (Value.str [86]))] :=
  claim_C2 [86] [7]

/-- Witness for claim C3 at a concrete version1 instance. -/
theorem claim_C3_witness :
    decode (encode [Slot.mk fieldA (some (Value.str [86]))]) schemaV2 =
      Except.ok [Slot.mk fieldA (some (Value.str [86])), Slot.mk fieldB none] :=
  claim_C3 [86]

/-- Witness for claim C4 at a concrete version2 instance with field b
set. -/
theorem claim_C4_witness :
    decode (encode [Slot.mk fieldA (some (Value.str [86])),
        Slot.mk fieldB (some (Value.intSeq [1, 2, 3, 4]))]) schemaV3 =
      Except.ok [Slot.mk fieldA (some (Value.str [86])),
        Slot.mk fieldBRetired none] :=
  claim_C4 [86] [1, 2, 3, 4]

/-- Witness for claim C10 at a concrete version3 instance. -/
theorem claim_C10_witness :
    decode (encode [Slot.mk fieldA (some (Value.str [86])),
        Slot.mk fieldBRetired none]) schemaV2 =
      Except.ok [Slot.mk fieldA (some (Value.str [86])), Slot.mk fieldB none] :=
  claim_C10 [86]
